import Mathlib

/-!
Verification development for the QAMetricsSystem metrics engine.

The metrics engine is a pure function from source text to a metrics record,
computing four independent static metrics: cyclomatic complexity, maximum
control-flow nesting depth, duplicated line blocks, and documentation
coverage of complex lines.  Lines are `List Char`; the JavaScript regular
expressions of the implementation are embedded as explicit character scans
(`\w` is `[A-Za-z0-9_]`, `\b` is a word boundary, `\s` the JS whitespace
class).
-/

namespace QAMetrics

/-- Word character class of JS regexes: `[A-Za-z0-9_]`. -/
def isWordChar (c : Char) : Bool := c.isAlpha || c.isDigit || c == '_'

/-- Whitespace class of JS `\s` and `String.prototype.trim`. -/
def isJsSpace (c : Char) : Bool :=
  c == ' ' || c == '\t' || c == '\n' || c == '\r' || c == '\x0b' || c == '\x0c' ||
  c == '\u00A0' || c == '\u1680' || ('\u2000' ≤ c && c ≤ '\u200A') ||
  c == '\u2028' || c == '\u2029' || c == '\u202F' || c == '\u205F' ||
  c == '\u3000' || c == '\uFEFF'

/-- Split a character sequence on newline characters, mirroring JS
`sourceCode.split('\n')`: the empty text yields a single empty line. -/
def splitLines : List Char → List (List Char)
  | [] => [[]]
  | c :: cs =>
    match splitLines cs, decide (c = '\n') with
    | ls, true => [] :: ls
    | l :: ls, false => (c :: l) :: ls
    | [], false => [[c]]

/-- Mirror of JS `String.prototype.trim`: drop whitespace from both ends. -/
def trimL (cs : List Char) : List Char :=
  ((cs.dropWhile isJsSpace).reverse.dropWhile isJsSpace).reverse

/-- Match a literal character sequence at the head of the input, returning
the remainder on success. -/
def litSplit : List Char → List Char → Option (List Char)
  | [], cs => some cs
  | _ :: _, [] => none
  | k :: ks, c :: cs => if c = k then litSplit ks cs else none

/-- Match a keyword at the head of the input with a trailing word boundary
(`kw\b`), returning the remainder on success. -/
def wordKwSplit (kw : List Char) (cs : List Char) : Option (List Char) :=
  match litSplit kw cs with
  | none => none
  | some [] => some []
  | some (d :: r) => if isWordChar d then none else some (d :: r)

/-- Try each keyword of a list at the head of the input (`\b(k1|k2|…)\b`,
given that the previous character is not a word character). -/
def kwSplit (kws : List (List Char)) (cs : List Char) : Option (List Char) :=
  kws.findSome? (fun kw => wordKwSplit kw cs)

/-! ### Cyclomatic complexity -/

/-- Decision-point keywords of `/\b(if|while|for|case|catch)\b|&&|\|\||\?/g`. -/
def cfKws : List (List Char) :=
  ["if".data, "while".data, "for".data, "case".data, "catch".data]

/-- Fuel-driven left-to-right scan counting the non-overlapping matches of
`/\b(if|while|for|case|catch)\b|&&|\|\||\?/g` on one line.  `prevW` records
whether the previous character was a word character (for the leading `\b`);
each step consumes at least one character, so fuel equal to the line length
is always sufficient. -/
def scanCFAux : Nat → Bool → List Char → Nat
  | 0, _, _ => 0
  | _ + 1, _, [] => 0
  | fuel + 1, prevW, c :: rest =>
    match (if prevW then none else kwSplit cfKws (c :: rest)) with
    | some r => 1 + scanCFAux fuel true r
    | none =>
      if c = '&' then
        match rest with
        | '&' :: r => 1 + scanCFAux fuel false r
        | _ => scanCFAux fuel false rest
      else if c = '|' then
        match rest with
        | '|' :: r => 1 + scanCFAux fuel false r
        | _ => scanCFAux fuel false rest
      else if c = '?' then 1 + scanCFAux fuel false rest
      else scanCFAux fuel (isWordChar c) rest

/-- Number of control-flow matches of the complexity regex on one line. -/
def countCF (cs : List Char) : Nat := scanCFAux cs.length false cs

/-- Scan testing whether `\bkw\b` matches anywhere in the line. -/
def containsWordAux (kw : List Char) : Bool → List Char → Bool
  | _, [] => false
  | prevW, c :: rest =>
    (if prevW then false else (wordKwSplit kw (c :: rest)).isSome)
      || containsWordAux kw (isWordChar c) rest

/-- Test of `/\bkw\b/` on a line. -/
def containsWord (kw : List Char) (cs : List Char) : Bool :=
  containsWordAux kw false cs

/-- Match of `else\s+if\b` at the head of the input: the literal `else`,
then at least one whitespace character, then `if` with a trailing word
boundary. -/
def elseIfAt (cs : List Char) : Bool :=
  match litSplit "else".data cs with
  | none => false
  | some r =>
    match r with
    | [] => false
    | d :: _ =>
      isJsSpace d && (wordKwSplit "if".data (r.dropWhile isJsSpace)).isSome

/-- Scan testing whether `\belse\s+if\b` matches anywhere in the line. -/
def containsElseIfAux : Bool → List Char → Bool
  | _, [] => false
  | prevW, c :: rest =>
    (if prevW then false else elseIfAt (c :: rest))
      || containsElseIfAux (isWordChar c) rest

/-- Test of `/\belse\s+if\b/` on a line. -/
def containsElseIf (cs : List Char) : Bool := containsElseIfAux false cs

/-- Else rule of the complexity analyzer: the line contains a whole-word
`else` but no `else if`. -/
def lineHasBareElse (cs : List Char) : Bool :=
  containsWord "else".data cs && !containsElseIf cs

/-- Location entry of the complexity and nesting analyzers. -/
structure ComplexityLocation where
  line : Nat
  code : List Char
  depth : Option Nat := none
  deriving DecidableEq

/-- Result of the complexity analyzer. -/
structure ComplexityResult where
  total : Nat
  locations : List ComplexityLocation
  deriving DecidableEq

/-- Loop body of `calculateCyclomaticComplexity`: for each line (0-based
index `i`), add the control-flow match count and record a location when
there is at least one match, then add one and record a location when the
bare-else rule fires. -/
def cycAux : Nat → List (List Char) → Nat → List ComplexityLocation →
    Nat × List ComplexityLocation
  | _, [], total, locs => (total, locs)
  | i, l :: ls, total, locs =>
    let m := countCF l
    let p := if 0 < m then (total + m, locs ++ [⟨i + 1, trimL l, none⟩]) else (total, locs)
    let q := if lineHasBareElse l then
        (p.1 + 1, p.2 ++ [⟨i + 1, trimL l, none⟩]) else p
    cycAux (i + 1) ls q.1 q.2

/-- Embedding of `calculateCyclomaticComplexity`: split the source text into
lines, start from base complexity 1, and scan every line. -/
def calculateCyclomaticComplexity (src : List Char) : ComplexityResult :=
  let r := cycAux 0 (splitLines src) 1 []
  ⟨r.1, r.2⟩

/-! ### Maximum nesting depth -/

/-- Control-opening keywords of `/\b(if|for|while|switch|do)\b.*{/`. -/
def nestKws : List (List Char) :=
  ["if".data, "for".data, "while".data, "switch".data, "do".data]

/-- Scan testing whether `\bkw\b.*{` matches anywhere in the line for one of
the given keywords: a whole-word keyword occurrence followed, anywhere later
on the line, by an opening brace. -/
def kwThenBraceAux (kws : List (List Char)) : Bool → List Char → Bool
  | _, [] => false
  | prevW, c :: rest =>
    (if prevW then false else
      match kwSplit kws (c :: rest) with
      | some r => r.contains '{'
      | none => false)
      || kwThenBraceAux kws (isWordChar c) rest

/-- Opening rule of the nesting tracker, applied to the trimmed line:
`/\b(if|for|while|switch|do)\b.*{/.test(t) || /\belse\b.*{/.test(t)`. -/
def openMatch (t : List Char) : Bool :=
  kwThenBraceAux nestKws false t || kwThenBraceAux ["else".data] false t

/-- Number of closing braces on the trimmed line (`(t.match(/}/g) || []).length`). -/
def countCloses (t : List Char) : Nat := t.count '}'

/-- Stack frame of the nesting tracker. -/
structure Frame where
  line : Nat
  code : List Char
  deriving DecidableEq

/-- Scanner state of `calculateMaxNestingDepth`.  Depths are integers so
that the clamping `Math.max(0, currentDepth - 1)` is modelled exactly. -/
structure NestState where
  maxDepth : Int
  currentDepth : Int
  locations : List ComplexityLocation
  stack : List Frame
  deriving DecidableEq

/-- Initial state of the nesting scanner. -/
def nestInit : NestState := ⟨0, 0, [], []⟩

/-- Snapshot of the stack taken when a new maximum depth is reached: each
frame tagged with its 1-based depth, bottom of the stack first. -/
def snapFrom : Nat → List Frame → List ComplexityLocation
  | _, [] => []
  | d, f :: fs => ⟨f.line, f.code, some (d + 1)⟩ :: snapFrom (d + 1) fs

/-- Processing of one closing brace: clamp the depth at zero and pop one
frame when the stack is nonempty. -/
def closeOnce (st : NestState) : NestState :=
  { st with
    currentDepth := max 0 (st.currentDepth - 1),
    stack := if st.stack.isEmpty then st.stack else st.stack.dropLast }

/-- Iterated processing of the closing braces of a line. -/
def closeRep : Nat → NestState → NestState
  | 0, st => st
  | n + 1, st => closeRep n (closeOnce st)

/-- Opening rule of one line: when the trimmed line matches the opening
pattern, push a frame and increment the depth, and when the new depth
strictly exceeds the running maximum, replace the recorded locations with a
snapshot of the whole stack. -/
def openStep (st : NestState) (i : Nat) (t : List Char) : NestState :=
  if openMatch t then
    let d := st.currentDepth + 1
    let stk := st.stack ++ [⟨i + 1, t⟩]
    if st.maxDepth < d then
      ⟨d, d, snapFrom 0 stk, stk⟩
    else
      { st with currentDepth := d, stack := stk }
  else st

/-- Processing of one line of the nesting scan: the opening rule first, then
the closing braces of the line. -/
def nestLine (st : NestState) (i : Nat) (line : List Char) : NestState :=
  let t := trimL line
  closeRep (countCloses t) (openStep st i t)

/-- Loop of `calculateMaxNestingDepth` over the lines with 0-based index. -/
def nestAux : Nat → List (List Char) → NestState → NestState
  | _, [], st => st
  | i, l :: ls, st => nestAux (i + 1) ls (nestLine st i l)

/-- Result of the nesting tracker. -/
structure NestingResult where
  max : Int
  locations : List ComplexityLocation
  deriving DecidableEq

/-- Embedding of `calculateMaxNestingDepth`. -/
def calculateMaxNestingDepth (lines : List (List Char)) : NestingResult :=
  let st := nestAux 0 lines nestInit
  ⟨st.maxDepth, st.locations⟩

/-! ### Duplicated code -/

/-- Trivial-punctuation test `/^[\)\}\;]+$/` on the trimmed line. -/
def isTrivial (t : List Char) : Bool :=
  !t.isEmpty && t.all (fun c => c = ')' || c = '}' || c = ';')

/-- Insertion-ordered map update mirroring the JS `Map`: append the line
number to the existing entry of the key, or append a fresh entry at the
end. -/
def addOcc (m : List (List Char × List Nat)) (key : List Char) (ln : Nat) :
    List (List Char × List Nat) :=
  match m with
  | [] => [(key, [ln])]
  | (k, v) :: rest =>
    if k = key then (k, v ++ [ln]) :: rest else (k, v) :: addOcc rest key ln

/-- Loop of `findDuplicatedCode`: skip lines shorter than 3 characters
after trimming or matching the trivial-punctuation pattern, and record the
1-based line number under the trimmed text otherwise. -/
def buildDupAux : Nat → List (List Char) → List (List Char × List Nat) →
    List (List Char × List Nat)
  | _, [], m => m
  | i, l :: ls, m =>
    let t := trimL l
    if t.length < 3 || isTrivial t then buildDupAux (i + 1) ls m
    else buildDupAux (i + 1) ls (addOcc m t (i + 1))

/-- Duplicate block of the duplicate detector. -/
structure DuplicateBlock where
  code : List Char
  occurrences : Nat
  locations : List Nat
  deriving DecidableEq

/-- Embedding of `findDuplicatedCode`: group the non-trivial lines by their
trimmed text and keep the groups occurring more than once. -/
def findDuplicatedCode (lines : List (List Char)) : List DuplicateBlock :=
  ((buildDupAux 0 lines []).filter (fun p => 1 < p.2.length)).map
    (fun p => ⟨p.1, p.2.length, p.2⟩)

/-! ### Documentation coverage -/

/-- Comment test of the documentation scorer: the trimmed line starts with
`//`, `/*` or `*`. -/
def isCommentLine (t : List Char) : Bool :=
  (litSplit "//".data t).isSome || (litSplit "/*".data t).isSome ||
    (litSplit "*".data t).isSome

/-- Match of `kw\s+\w+` at the head of the input: the literal keyword (no
word boundary in the source patterns), then at least one whitespace
character, then at least one word character. -/
def declAt (kw : List Char) (cs : List Char) : Bool :=
  match litSplit kw cs with
  | none => false
  | some [] => false
  | some (d :: r) =>
    isJsSpace d &&
      (match (d :: r).dropWhile isJsSpace with
       | e :: _ => isWordChar e
       | [] => false)

/-- Scan testing whether `kw\s+\w+` matches anywhere in the line. -/
def containsDecl (kw : List Char) : List Char → Bool
  | [] => false
  | c :: rest => declAt kw (c :: rest) || containsDecl kw rest

/-- Complex-line test of the documentation scorer, applied to the trimmed
line: one of the declaration patterns `function\s+\w+`, `class\s+\w+`,
`interface\s+\w+`, or a whole-word `if`, `for`, `while` or `switch`. -/
def isComplexLine (t : List Char) : Bool :=
  containsDecl "function".data t || containsDecl "class".data t ||
    containsDecl "interface".data t || containsWord "if".data t ||
    containsWord "for".data t || containsWord "while".data t ||
    containsWord "switch".data t

/-- Loop of `analyzeDocumentation`: count complex lines, and those complex
lines whose immediately preceding line was a comment. -/
def docAux : List (List Char) → Nat → Nat → Bool → Nat × Nat
  | [], tot, doc, _ => (tot, doc)
  | l :: ls, tot, doc, lastCmt =>
    let t := trimL l
    let isCx := isComplexLine t
    docAux ls (if isCx then tot + 1 else tot)
      (if isCx && lastCmt then doc + 1 else doc) (isCommentLine t)

/-- Documentation-coverage result; the percentage is modelled as a rational
number. -/
structure DocCoverage where
  totalComplexLines : Nat
  documentedComplexLines : Nat
  percentage : ℚ
  deriving DecidableEq

/-- Embedding of `analyzeDocumentation`. -/
def analyzeDocumentation (lines : List (List Char)) : DocCoverage :=
  let r := docAux lines 0 0 false
  ⟨r.1, r.2, if r.1 = 0 then 100 else ((r.2 : ℚ) / (r.1 : ℚ)) * 100⟩

/-! ### Aggregation -/

/-- Aggregate metrics record returned by `analyzeCode`. -/
structure CodeMetrics where
  cyclomaticComplexity : ComplexityResult
  maxNestingDepth : NestingResult
  duplicatedCodeBlocks : List DuplicateBlock
  documentationCoverage : DocCoverage
  deriving DecidableEq

/-- Embedding of `analyzeCode`, the core entry point: split the source text
on newlines and run the four analyzers. -/
def analyzeCode (sourceCode : String) : CodeMetrics :=
  let lines := splitLines sourceCode.data
  { cyclomaticComplexity := calculateCyclomaticComplexity sourceCode.data,
    maxNestingDepth := calculateMaxNestingDepth lines,
    duplicatedCodeBlocks := findDuplicatedCode lines,
    documentationCoverage := analyzeDocumentation lines }

/-! ### Specification-side definitions

Definitions used only to state the verified properties. -/

/-- Per-line contribution to the complexity total: the control-flow match
count plus one when the bare-else rule fires. -/
def lineContribution (l : List Char) : Nat :=
  countCF l + (if lineHasBareElse l then 1 else 0)

/-- Expected complexity locations of a line sequence starting at 0-based
index `i`: one entry per line with at least one control-flow match, then one
entry per line on which the bare-else rule fires. -/
def cycLocsSpec : Nat → List (List Char) → List ComplexityLocation
  | _, [] => []
  | i, l :: ls =>
    (if 0 < countCF l then [⟨i + 1, trimL l, none⟩] else []) ++
      (if lineHasBareElse l then [⟨i + 1, trimL l, none⟩] else []) ++
        cycLocsSpec (i + 1) ls

/-- Structural invariant of the nesting-scanner state: the depth counters
are non-negative, the stack size agrees with the current depth, the number
of recorded locations agrees with the running maximum, and the recorded
depth tags are exactly `1, …, maxDepth` in ascending order. -/
def NestInv (st : NestState) : Prop :=
  0 ≤ st.currentDepth ∧
  st.stack.length = st.currentDepth.toNat ∧
  0 ≤ st.maxDepth ∧
  (st.locations.length : Int) = st.maxDepth ∧
  st.locations.map ComplexityLocation.depth
    = (List.range' 1 st.locations.length).map some

/-- Well-formedness of one entry of the duplicate-grouping map with respect
to the original lines and a bound on the recorded line numbers: the key is a
non-trivial trimmed line of length at least 3, the recorded line numbers are
strictly ascending, and each points at a line whose trimmed text is the
key. -/
def EntryOk (lines : List (List Char)) (bound : Nat)
    (p : List Char × List Nat) : Prop :=
  3 ≤ p.1.length ∧ isTrivial p.1 = false ∧ List.Chain' (· < ·) p.2 ∧
    ∀ x ∈ p.2, 1 ≤ x ∧ x ≤ bound ∧
      ∃ raw, lines[x - 1]? = some raw ∧ trimL raw = p.1

/-- Well-formedness of the whole duplicate-grouping map. -/
def DupInv (lines : List (List Char)) (bound : Nat)
    (m : List (List Char × List Nat)) : Prop :=
  ∀ p ∈ m, EntryOk lines bound p

end QAMetrics

namespace QAMetrics

example : countCF "if (a && b)".data = 2 := by decide

example : countCF "ifValue = 3".data = 0 := by decide

example : countCF "for (x of forEach)".data = 1 := by decide

example : lineHasBareElse "else \x7b".data = true := by decide

example : lineHasBareElse "\x7d else if (x) \x7b".data = false := by decide

example : splitLines "".data = [[]] := by decide

example : splitLines "a\nb".data = [['a'], ['b']] := by decide

example : calculateCyclomaticComplexity "".data = ⟨1, []⟩ := by decide

example :
    calculateMaxNestingDepth (splitLines "if (a) \x7b\n  for (b) \x7b\n    while (c) \x7b\n    \x7d\n  \x7d\n\x7d".data) =
      ⟨3, [⟨1, "if (a) \x7b".data, some 1⟩, ⟨2, "for (b) \x7b".data, some 2⟩,
           ⟨3, "while (c) \x7b".data, some 3⟩]⟩ := by decide

example : calculateMaxNestingDepth (splitLines "".data) = ⟨0, []⟩ := by decide

example :
    findDuplicatedCode (splitLines "x\nconst x = 1;\ny\n  const x = 1;\n\x7d);\n\x7d);".data) =
      [⟨"const x = 1;".data, 2, [2, 4]⟩] := by decide

example : analyzeDocumentation (splitLines "// comment\nif (x) \x7b \x7d".data) = ⟨1, 1, 100⟩ := by
  have h : docAux (splitLines "// comment\nif (x) \x7b \x7d".data) 0 0 false = (1, 1) := by decide
  simp [analyzeDocumentation, h]

example : analyzeDocumentation (splitLines "if (x) \x7b \x7d".data) = ⟨1, 0, 0⟩ := by
  have h : docAux (splitLines "if (x) \x7b \x7d".data) 0 0 false = (1, 0) := by decide
  simp [analyzeDocumentation, h]

example :
    analyzeCode "" =
      ⟨⟨1, []⟩, ⟨0, []⟩, [], ⟨0, 0, 100⟩⟩ := by decide

end QAMetrics

namespace QAMetrics

/-! ### Lemmas on the complexity analyzer -/

theorem cycAux_total (ls : List (List Char)) :
    ∀ (i total : Nat) (locs : List ComplexityLocation),
      (cycAux i ls total locs).1 = total + (ls.map lineContribution).sum := by
  induction ls with
  | nil => intro i total locs; simp [cycAux]
  | cons l ls ih =>
    intro i total locs
    simp only [cycAux, List.map_cons, List.sum_cons, ih, lineContribution]
    by_cases h1 : 0 < countCF l <;> by_cases h2 : lineHasBareElse l <;>
      simp [h1, h2] <;> omega

theorem cycAux_locs (ls : List (List Char)) :
    ∀ (i total : Nat) (locs : List ComplexityLocation),
      (cycAux i ls total locs).2 = locs ++ cycLocsSpec i ls := by
  induction ls with
  | nil => intro i total locs; simp [cycAux, cycLocsSpec]
  | cons l ls ih =>
    intro i total locs
    simp only [cycAux, cycLocsSpec, ih]
    by_cases h1 : 0 < countCF l <;> by_cases h2 : lineHasBareElse l <;>
      simp [h1, h2]

theorem cycLocsSpec_line_lb (ls : List (List Char)) :
    ∀ (i : Nat) (loc : ComplexityLocation), loc ∈ cycLocsSpec i ls →
      i + 1 ≤ loc.line := by
  induction ls with
  | nil => intro i loc h; simp [cycLocsSpec] at h
  | cons l ls ih =>
    intro i loc h
    simp only [cycLocsSpec, List.mem_append] at h
    rcases h with (h | h) | h
    · split at h <;> simp_all
    · split at h <;> simp_all
    · exact le_trans (by omega) (ih (i + 1) loc h)

end QAMetrics

namespace QAMetrics

theorem chainLeCons (n : Nat) (xs : List Nat) (hlb : ∀ x ∈ xs, n ≤ x)
    (h : List.Chain' (· ≤ ·) xs) : List.Chain' (· ≤ ·) (n :: xs) := by
  cases xs with
  | nil => simp
  | cons a xs => exact h.cons (hlb a (by simp))

theorem chainLeOfAllEq (n : Nat) :
    ∀ (xs ys : List Nat), (∀ x ∈ xs, x = n) → (∀ y ∈ ys, n ≤ y) →
      List.Chain' (· ≤ ·) ys → List.Chain' (· ≤ ·) (xs ++ ys) := by
  intro xs
  induction xs with
  | nil => intro ys _ _ hc; simpa using hc
  | cons a xs ih =>
    intro ys hxs hys hc
    have ha : a = n := hxs a (by simp)
    subst ha
    refine chainLeCons a _ ?_ (ih ys (fun x hx => hxs x (by simp [hx])) hys hc)
    intro x hx
    rcases List.mem_append.mp hx with hx | hx
    · exact le_of_eq (hxs x (by simp [hx])).symm
    · exact hys x hx

theorem cycLocsSpec_sorted (ls : List (List Char)) :
    ∀ i : Nat,
      List.Chain' (· ≤ ·) ((cycLocsSpec i ls).map ComplexityLocation.line) := by
  induction ls with
  | nil => intro i; simp [cycLocsSpec]
  | cons l ls ih =>
    intro i
    have hrest : ∀ x ∈ (cycLocsSpec (i + 1) ls).map ComplexityLocation.line,
        i + 1 ≤ x := by
      intro x hx
      rcases List.mem_map.mp hx with ⟨loc, hloc, rfl⟩
      exact le_trans (by omega) (cycLocsSpec_line_lb ls (i + 1) loc hloc)
    have hchain := ih (i + 1)
    have inner : List.Chain' (· ≤ ·)
        ((i + 1) :: (cycLocsSpec (i + 1) ls).map ComplexityLocation.line) :=
      chainLeCons _ _ hrest hchain
    have lb2 : ∀ x ∈ (i + 1) ::
        (cycLocsSpec (i + 1) ls).map ComplexityLocation.line, i + 1 ≤ x := by
      intro x hx
      rcases List.mem_cons.mp hx with rfl | hx
      · exact le_refl _
      · exact hrest x hx
    have outer : List.Chain' (· ≤ ·) ((i + 1) :: (i + 1) ::
        (cycLocsSpec (i + 1) ls).map ComplexityLocation.line) :=
      chainLeCons _ _ lb2 inner
    simp only [cycLocsSpec, List.map_append]
    by_cases h1 : 0 < countCF l <;> by_cases h2 : lineHasBareElse l
    · simpa [h1, h2] using outer
    · simpa [h1, h2] using inner
    · simpa [h1, h2] using inner
    · simpa [h1, h2] using hchain

theorem cycLocsSpec_filter_nil (ls : List (List Char)) :
    ∀ (i m : Nat), m ≤ i →
      (cycLocsSpec i ls).filter (fun loc => loc.line = m) = [] := by
  intro i m him
  rw [List.filter_eq_nil_iff]
  intro loc hloc
  have := cycLocsSpec_line_lb ls i loc hloc
  simp only [decide_eq_true_eq]
  omega

theorem cycLocsSpec_filter_len (ls : List (List Char)) :
    ∀ (i k : Nat) (l : List Char), ls[k]? = some l →
      ((cycLocsSpec i ls).filter (fun loc => loc.line = i + k + 1)).length
        = (if 0 < countCF l then 1 else 0) +
            (if lineHasBareElse l then 1 else 0) := by
  induction ls with
  | nil => intro i k l h; simp at h
  | cons a ls ih =>
    intro i k l h
    cases k with
    | zero =>
      rw [List.getElem?_cons_zero] at h
      injection h with h
      subst h
      simp only [cycLocsSpec, List.filter_append]
      rw [cycLocsSpec_filter_nil ls (i + 1) (i + 0 + 1) (by omega)]
      by_cases h1 : 0 < countCF a <;> by_cases h2 : lineHasBareElse a <;>
        simp [h1, h2]
    | succ k =>
      rw [List.getElem?_cons_succ] at h
      have hrec := ih (i + 1) k l h
      have harith : i + (k + 1) + 1 = i + 1 + k + 1 := by omega
      simp only [cycLocsSpec, List.filter_append, harith]
      have hc1 : (if 0 < countCF a then
            [(⟨i + 1, trimL a, none⟩ : ComplexityLocation)] else []).filter
          (fun loc => loc.line = i + 1 + k + 1) = [] := by
        apply List.filter_eq_nil_iff.mpr
        intro loc hloc
        split at hloc <;> simp_all <;> omega
      have hc2 : (if lineHasBareElse a then
            [(⟨i + 1, trimL a, none⟩ : ComplexityLocation)] else []).filter
          (fun loc => loc.line = i + 1 + k + 1) = [] := by
        apply List.filter_eq_nil_iff.mpr
        intro loc hloc
        split at hloc <;> simp_all <;> omega
      rw [hc1, hc2]
      simpa using hrec

/-! ### Claims on the complexity analyzer -/

/-- C1: the operation `analyzeCode` is total (a Lean function on all of
`String`); its complexity total is at least 1 for every input, and on the
empty string it returns exactly the neutral report: complexity total 1 with
no locations, nesting max 0 with no locations, no duplicate blocks, and
documentation coverage with 0 total complex lines, 0 documented complex
lines and percentage 100. -/
theorem claim_C1 :
    (∀ src : String, 1 ≤ (analyzeCode src).cyclomaticComplexity.total) ∧
    analyzeCode "" = ⟨⟨1, []⟩, ⟨0, []⟩, [], ⟨0, 0, 100⟩⟩ := by
  constructor
  · intro src
    simp [analyzeCode, calculateCyclomaticComplexity, cycAux_total]
  · decide

/-- C2: for every input the complexity total equals 1 (the base) plus, over
all lines, the number of regex matches of the decision tokens (whole-word
`if`/`while`/`for`/`case`/`catch`, `&&`, `||`, `?`) plus one per line on
which the bare-else rule fires; word-boundary matching makes `ifValue`
contribute nothing, the line `if (a && b)` contributes exactly 2, and the
total is always at least 1. -/
theorem claim_C2 :
    (∀ src : List Char,
        (calculateCyclomaticComplexity src).total
          = 1 + ((splitLines src).map lineContribution).sum) ∧
    countCF "ifValue = 3".data = 0 ∧
    lineContribution "if (a && b)".data = 2 ∧
    (∀ src : List Char, 1 ≤ (calculateCyclomaticComplexity src).total) := by
  refine ⟨fun src => ?_, by decide, by decide, fun src => ?_⟩
  · simp [calculateCyclomaticComplexity, cycAux_total]
  · simp [calculateCyclomaticComplexity, cycAux_total]

/-- C7: the complexity location list records each line once per match
event: a line with at least one decision-token match is recorded once for
it, a line on which the bare-else rule fires is recorded once more, lines
with neither are not recorded, and the recorded line numbers are in
ascending order; the concrete line `else x ? 1 : 0` is recorded twice. -/
theorem claim_C7 :
    (∀ (src : List Char) (k : Nat) (l : List Char),
        (splitLines src)[k]? = some l →
        ((calculateCyclomaticComplexity src).locations.filter
            (fun loc => loc.line = k + 1)).length
          = (if 0 < countCF l then 1 else 0) +
              (if lineHasBareElse l then 1 else 0)) ∧
    (∀ src : List Char,
        List.Chain' (· ≤ ·)
          ((calculateCyclomaticComplexity src).locations.map
            ComplexityLocation.line)) ∧
    (calculateCyclomaticComplexity "else x ? 1 : 0".data).locations.map
        ComplexityLocation.line = [1, 1] := by
  refine ⟨fun src k l h => ?_, fun src => ?_, by decide⟩
  · have := cycLocsSpec_filter_len (splitLines src) 0 k l h
    simpa [calculateCyclomaticComplexity, cycAux_locs] using this
  · have := cycLocsSpec_sorted (splitLines src) 0
    simpa [calculateCyclomaticComplexity, cycAux_locs] using this

/-- Witness for C7 at a concrete input: the single line `if (x)` is
recorded exactly once. -/
theorem claim_C7_witness :
    ((calculateCyclomaticComplexity "if (x)".data).locations.filter
        (fun loc => loc.line = 0 + 1)).length
      = (if 0 < countCF "if (x)".data then 1 else 0) +
          (if lineHasBareElse "if (x)".data then 1 else 0) :=
  claim_C7.1 "if (x)".data 0 "if (x)".data (by decide)

end QAMetrics

namespace QAMetrics

/-! ### Lemmas on the nesting tracker -/

theorem snapFrom_length : ∀ (d : Nat) (fs : List Frame),
    (snapFrom d fs).length = fs.length := by
  intro d fs
  induction fs generalizing d with
  | nil => simp [snapFrom]
  | cons f fs ih => simp [snapFrom, ih]

theorem snapFrom_depths : ∀ (d : Nat) (fs : List Frame),
    (snapFrom d fs).map ComplexityLocation.depth
      = (List.range' (d + 1) fs.length).map some := by
  intro d fs
  induction fs generalizing d with
  | nil => simp [snapFrom]
  | cons f fs ih => simp [snapFrom, List.range', ih]

theorem closeOnce_maxDepth (st : NestState) :
    (closeOnce st).maxDepth = st.maxDepth := rfl

theorem closeOnce_locations (st : NestState) :
    (closeOnce st).locations = st.locations := rfl

theorem closeOnce_depth (st : NestState) :
    (closeOnce st).currentDepth = max 0 (st.currentDepth - 1) := rfl

theorem closeRep_maxDepth : ∀ (n : Nat) (st : NestState),
    (closeRep n st).maxDepth = st.maxDepth := by
  intro n
  induction n with
  | zero => intro st; rfl
  | succ n ih => intro st; rw [closeRep, ih, closeOnce_maxDepth]

theorem closeRep_locations : ∀ (n : Nat) (st : NestState),
    (closeRep n st).locations = st.locations := by
  intro n
  induction n with
  | zero => intro st; rfl
  | succ n ih => intro st; rw [closeRep, ih, closeOnce_locations]

theorem closeRep_depth : ∀ (n : Nat) (st : NestState), 0 ≤ st.currentDepth →
    (closeRep n st).currentDepth = max 0 (st.currentDepth - n) := by
  intro n
  induction n with
  | zero => intro st h; rw [closeRep]; omega
  | succ n ih =>
    intro st h
    rw [closeRep, ih (closeOnce st) (by rw [closeOnce_depth]; omega),
      closeOnce_depth]
    omega

theorem closeOnce_inv (st : NestState) (h : NestInv st) :
    NestInv (closeOnce st) := by
  obtain ⟨h0, hs, hm, hl, hd⟩ := h
  refine ⟨by rw [closeOnce_depth]; omega, ?_,
    by rw [closeOnce_maxDepth]; exact hm, ?_, ?_⟩
  · show (if st.stack.isEmpty then st.stack else st.stack.dropLast).length
      = (max 0 (st.currentDepth - 1)).toNat
    by_cases he : st.stack.isEmpty
    · have : st.stack.length = 0 := by simp [List.isEmpty_iff] at he; simp [he]
      rw [if_pos he]
      omega
    · have hlen : 0 < st.stack.length := by
        cases hst : st.stack with
        | nil => simp [hst] at he
        | cons a t => simp [hst]
      rw [if_neg he, List.length_dropLast]
      omega
  · rw [closeOnce_locations, closeOnce_maxDepth]; exact hl
  · rw [closeOnce_locations]; exact hd

theorem closeRep_inv : ∀ (n : Nat) (st : NestState), NestInv st →
    NestInv (closeRep n st) := by
  intro n
  induction n with
  | zero => intro st h; exact h
  | succ n ih => intro st h; rw [closeRep]; exact ih _ (closeOnce_inv st h)

theorem openStep_depth (st : NestState) (i : Nat) (t : List Char) :
    (openStep st i t).currentDepth
      = st.currentDepth + (if openMatch t then 1 else 0) := by
  by_cases ho : openMatch t
  · simp only [openStep, ho, if_true]
    split <;> simp
  · simp [openStep, ho]

theorem openStep_max_lb (st : NestState) (i : Nat) (t : List Char) :
    st.maxDepth ≤ (openStep st i t).maxDepth := by
  by_cases ho : openMatch t
  · simp only [openStep, ho, if_true]
    split
    · simp only []
      omega
    · simp
  · simp [openStep, ho]

theorem openStep_locations_of_eq (st : NestState) (i : Nat) (t : List Char)
    (h : (openStep st i t).maxDepth = st.maxDepth) :
    (openStep st i t).locations = st.locations := by
  by_cases ho : openMatch t
  · simp only [openStep, ho, if_true] at h ⊢
    by_cases hlt : st.maxDepth < st.currentDepth + 1
    · rw [if_pos hlt] at h
      exfalso
      dsimp only at h
      omega
    · rw [if_neg hlt]
  · simp [openStep, ho]

theorem openStep_inv (st : NestState) (i : Nat) (t : List Char)
    (h : NestInv st) : NestInv (openStep st i t) := by
  obtain ⟨h0, hs, hm, hl, hd⟩ := h
  by_cases ho : openMatch t
  · simp only [openStep, ho, if_true]
    by_cases hlt : st.maxDepth < st.currentDepth + 1
    · rw [if_pos hlt]
      unfold NestInv
      dsimp only
      refine ⟨by omega, ?_, by omega, ?_, ?_⟩
      · rw [List.length_append, hs]
        simp only [List.length_singleton]
        omega
      · rw [snapFrom_length, List.length_append, hs]
        simp only [List.length_singleton]
        omega
      · rw [snapFrom_depths, snapFrom_length]
    · rw [if_neg hlt]
      unfold NestInv
      dsimp only
      refine ⟨by omega, ?_, hm, hl, hd⟩
      rw [List.length_append, hs]
      simp only [List.length_singleton]
      omega
  · simp only [openStep, ho, if_false]
    exact ⟨h0, hs, hm, hl, hd⟩

theorem nestLine_inv (st : NestState) (i : Nat) (line : List Char)
    (h : NestInv st) : NestInv (nestLine st i line) :=
  closeRep_inv _ _ (openStep_inv st i (trimL line) h)

theorem nestInit_inv : NestInv nestInit := by
  refine ⟨by simp [nestInit], by simp [nestInit], by simp [nestInit], by simp [nestInit], by simp [nestInit]⟩

theorem nestAux_inv : ∀ (ls : List (List Char)) (i : Nat) (st : NestState),
    NestInv st → NestInv (nestAux i ls st) := by
  intro ls
  induction ls with
  | nil => intro i st h; exact h
  | cons l ls ih => intro i st h; exact ih (i + 1) _ (nestLine_inv st i l h)

theorem nestLine_max_mono (st : NestState) (i : Nat) (line : List Char) :
    st.maxDepth ≤ (nestLine st i line).maxDepth := by
  show st.maxDepth ≤ (closeRep (countCloses (trimL line)) (openStep st i (trimL line))).maxDepth
  rw [closeRep_maxDepth]
  exact openStep_max_lb st i (trimL line)

theorem nestLine_locations_of_eq (st : NestState) (i : Nat) (line : List Char)
    (h : (nestLine st i line).maxDepth = st.maxDepth) :
    (nestLine st i line).locations = st.locations := by
  show (closeRep (countCloses (trimL line)) (openStep st i (trimL line))).locations
    = st.locations
  rw [closeRep_locations]
  apply openStep_locations_of_eq
  have hh : (closeRep (countCloses (trimL line)) (openStep st i (trimL line))).maxDepth
      = st.maxDepth := h
  rw [closeRep_maxDepth] at hh
  exact hh

end QAMetrics

namespace QAMetrics

/-! ### Claims on the nesting tracker -/

/-- C3: whenever the reported nesting max is positive the locations list has
exactly max entries tagged with depths 1, …, max in ascending order, the
list is empty when max is 0, the running maximum never decreases across a
line, and a line that leaves the maximum unchanged leaves the recorded
snapshot unchanged (so the snapshot is the stack at the first moment the
final maximum was achieved). -/
theorem claim_C3 (lines : List (List Char)) :
    (0 < (calculateMaxNestingDepth lines).max →
        (((calculateMaxNestingDepth lines).locations.length : Int)
            = (calculateMaxNestingDepth lines).max ∧
          (calculateMaxNestingDepth lines).locations.map ComplexityLocation.depth
            = (List.range' 1
                (calculateMaxNestingDepth lines).locations.length).map some)) ∧
    ((calculateMaxNestingDepth lines).max = 0 →
        (calculateMaxNestingDepth lines).locations = []) ∧
    (∀ (st : NestState) (i : Nat) (l : List Char),
        st.maxDepth ≤ (nestLine st i l).maxDepth) ∧
    (∀ (st : NestState) (i : Nat) (l : List Char),
        (nestLine st i l).maxDepth = st.maxDepth →
        (nestLine st i l).locations = st.locations) := by
  have hinv : NestInv (nestAux 0 lines nestInit) :=
    nestAux_inv lines 0 nestInit nestInit_inv
  obtain ⟨h0, hs, hm, hl, hd⟩ := hinv
  have hmax : (calculateMaxNestingDepth lines).max
      = (nestAux 0 lines nestInit).maxDepth := rfl
  have hloc : (calculateMaxNestingDepth lines).locations
      = (nestAux 0 lines nestInit).locations := rfl
  refine ⟨fun _ => ⟨?_, ?_⟩, fun hz => ?_, fun st i l => nestLine_max_mono st i l,
    fun st i l h => nestLine_locations_of_eq st i l h⟩
  · rw [hmax, hloc]; exact hl
  · rw [hloc]; exact hd
  · rw [hmax] at hz
    rw [hloc]
    have : ((nestAux 0 lines nestInit).locations.length : Int) = 0 := by
      rw [hl, hz]
    have hlen : (nestAux 0 lines nestInit).locations.length = 0 := by omega
    exact List.length_eq_zero.mp hlen

/-- Witness for C3 at a concrete input with positive nesting depth. -/
theorem claim_C3_witness :
    ((calculateMaxNestingDepth (splitLines "if (a) \x7b\n\x7d".data)).locations.length : Int)
      = (calculateMaxNestingDepth (splitLines "if (a) \x7b\n\x7d".data)).max :=
  (((claim_C3 (splitLines "if (a) \x7b\n\x7d".data)).1 (by decide))).1

/-- C6: on every line the opening rule is applied before the closing
braces, so the resulting depth is the clamped value of depth plus the
opening increment minus the number of closing braces, and is never
negative; each single closing brace decrements the depth and pops one frame
exactly when the depth is positive, and is ignored without any effect when
the depth is zero. -/
theorem claim_C6 :
    (∀ (st : NestState) (i : Nat) (line : List Char), 0 ≤ st.currentDepth →
        ((nestLine st i line).currentDepth
            = max 0 (st.currentDepth + (if openMatch (trimL line) then 1 else 0)
                - (countCloses (trimL line) : Int)) ∧
          0 ≤ (nestLine st i line).currentDepth)) ∧
    (∀ st : NestState, st.stack.length = st.currentDepth.toNat →
        ((0 < st.currentDepth →
            (closeOnce st).currentDepth = st.currentDepth - 1 ∧
            (closeOnce st).stack.length = st.stack.length - 1 ∧
            (closeOnce st).maxDepth = st.maxDepth ∧
            (closeOnce st).locations = st.locations) ∧
          (st.currentDepth = 0 → closeOnce st = st))) := by
  constructor
  · intro st i line h0
    have hform : (nestLine st i line).currentDepth
        = max 0 (st.currentDepth + (if openMatch (trimL line) then 1 else 0)
            - (countCloses (trimL line) : Int)) := by
      show (closeRep (countCloses (trimL line))
          (openStep st i (trimL line))).currentDepth = _
      rw [closeRep_depth _ _ (by rw [openStep_depth]; split <;> omega),
        openStep_depth]
    exact ⟨hform, by rw [hform]; omega⟩
  · intro st hs
    constructor
    · intro hpos
      have hne : st.stack.isEmpty = false := by
        cases hst : st.stack with
        | nil => rw [hst] at hs; simp at hs; omega
        | cons a l => simp [hst]
      refine ⟨by rw [closeOnce_depth]; omega, ?_, closeOnce_maxDepth st,
        closeOnce_locations st⟩
      show (if st.stack.isEmpty then st.stack else st.stack.dropLast).length
          = st.stack.length - 1
      rw [hne]
      simp [List.length_dropLast]
    · intro hz
      have hemp : st.stack = [] := by
        apply List.length_eq_zero.mp
        rw [hs, hz]
        rfl
      show NestState.mk st.maxDepth (max 0 (st.currentDepth - 1))
          st.locations (if st.stack.isEmpty then st.stack else st.stack.dropLast)
        = st
      rw [hemp, hz]
      simp only [List.isEmpty_nil, if_true, Int.zero_sub]
      rw [show max 0 (-1 : Int) = 0 from rfl, ← hz, ← hemp]

/-- Witness for C6 at a concrete input: a line that both opens a frame and
closes it again. -/
theorem claim_C6_witness :
    (nestLine nestInit 0 "if (x) \x7b \x7d".data).currentDepth
      = max 0 (nestInit.currentDepth
          + (if openMatch (trimL "if (x) \x7b \x7d".data) then 1 else 0)
          - (countCloses (trimL "if (x) \x7b \x7d".data) : Int)) :=
  (claim_C6.1 nestInit 0 "if (x) \x7b \x7d".data (by decide)).1

/-- C9: the stack-size/depth synchronisation invariant is preserved by
every line step (as part of the full scanner invariant), holds initially,
holds after processing every prefix of the line sequence, and forces every
snapshot taken by a line step to have as many entries as the new maximum
depth. -/
theorem claim_C9 :
    (∀ (st : NestState) (i : Nat) (l : List Char),
        NestInv st → NestInv (nestLine st i l)) ∧
    NestInv nestInit ∧
    (∀ (lines : List (List Char)) (k : Nat),
        (nestAux 0 (lines.take k) nestInit).stack.length
          = (nestAux 0 (lines.take k) nestInit).currentDepth.toNat) ∧
    (∀ (st : NestState) (i : Nat) (l : List Char), NestInv st →
        ((nestLine st i l).locations.length : Int) = (nestLine st i l).maxDepth) := by
  refine ⟨fun st i l h => nestLine_inv st i l h, nestInit_inv, fun lines k => ?_,
    fun st i l h => ?_⟩
  · exact (nestAux_inv (lines.take k) 0 nestInit nestInit_inv).2.1
  · exact (nestLine_inv st i l h).2.2.2.1

/-- Witness for C9: the scanner invariant after one concrete line step from
the initial state. -/
theorem claim_C9_witness : NestInv (nestLine nestInit 0 "if (x) \x7b".data) :=
  claim_C9.1 nestInit 0 "if (x) \x7b".data
    ⟨by decide, by decide, by decide, by decide, by decide⟩

end QAMetrics

namespace QAMetrics

/-! ### Lemmas on the duplicate detector -/

theorem chainSnoc (n : Nat) : ∀ (v : List Nat), List.Chain' (· < ·) v →
    (∀ x ∈ v, x < n) → List.Chain' (· < ·) (v ++ [n]) := by
  intro v
  induction v with
  | nil => intro _ _; simp
  | cons a v ih =>
    intro hc hb
    cases v with
    | nil =>
      simp only [List.nil_append, List.singleton_append]
      exact List.chain'_pair.mpr (hb a (by simp))
    | cons b v =>
      rw [List.cons_append, List.cons_append, List.chain'_cons]
      rw [List.chain'_cons] at hc
      refine ⟨hc.1, ?_⟩
      have := ih hc.2 (fun x hx => hb x (List.mem_cons_of_mem a hx))
      rwa [List.cons_append] at this

theorem entryOk_mono (lines : List (List Char)) (bound : Nat)
    (p : List Char × List Nat) (h : EntryOk lines bound p) :
    EntryOk lines (bound + 1) p := by
  obtain ⟨h1, h2, h3, h4⟩ := h
  refine ⟨h1, h2, h3, fun x hx => ?_⟩
  obtain ⟨ha, hb, hc⟩ := h4 x hx
  exact ⟨ha, by omega, hc⟩

theorem addOcc_inv (lines : List (List Char)) (bound : Nat) (key : List Char)
    (raw : List Char) (hk3 : 3 ≤ key.length) (hkt : isTrivial key = false)
    (hraw : lines[bound]? = some raw) (htrim : trimL raw = key) :
    ∀ m : List (List Char × List Nat), DupInv lines bound m →
      DupInv lines (bound + 1) (addOcc m key (bound + 1)) := by
  intro m
  induction m with
  | nil =>
    intro _ p hp
    simp only [addOcc, List.mem_singleton] at hp
    subst hp
    refine ⟨hk3, hkt, List.chain'_singleton _, ?_⟩
    intro x hx
    simp only [List.mem_singleton] at hx
    subst hx
    refine ⟨by omega, by omega, raw, ?_, htrim⟩
    simpa using hraw
  | cons q m ih =>
    obtain ⟨k, v⟩ := q
    intro hm
    have hmq := hm (k, v) (by simp)
    have hmrest : DupInv lines bound m := fun p hp => hm p (by simp [hp])
    simp only [addOcc]
    split
    · rename_i hkeq
      intro p hp
      rcases List.mem_cons.mp hp with rfl | hp
      · obtain ⟨h1, h2, h3, h4⟩ := hmq
        refine ⟨h1, h2, ?_, ?_⟩
        · exact chainSnoc (bound + 1) v h3
            (fun x hx => by have := (h4 x hx).2.1; omega)
        · intro x hx
          rcases List.mem_append.mp hx with hx | hx
          · obtain ⟨ha, hb, hc⟩ := h4 x hx
            exact ⟨ha, by omega, hc⟩
          · simp only [List.mem_singleton] at hx
            subst hx
            subst hkeq
            refine ⟨by omega, by omega, raw, ?_, htrim⟩
            simpa using hraw
      · exact entryOk_mono lines bound p (hmrest p hp)
    · intro p hp
      rcases List.mem_cons.mp hp with rfl | hp
      · exact entryOk_mono lines bound _ hmq
      · exact ih hmrest p hp

theorem drop_cons_elim {α : Type} : ∀ (xs : List α) (i : Nat) (a : α)
    (t : List α), xs.drop i = a :: t →
    xs[i]? = some a ∧ xs.drop (i + 1) = t := by
  intro xs
  induction xs with
  | nil => intro i a t h; simp at h
  | cons x xs ih =>
    intro i a t h
    cases i with
    | zero =>
      rw [List.drop_zero] at h
      injection h with h1 h2
      subst h1
      subst h2
      exact ⟨by simp, by simp⟩
    | succ i =>
      rw [List.drop_succ_cons] at h
      obtain ⟨ha, hb⟩ := ih i a t h
      exact ⟨by simpa using ha, by simpa using hb⟩

theorem buildDupAux_inv (lines : List (List Char)) :
    ∀ (ls : List (List Char)) (i : Nat) (m : List (List Char × List Nat)),
      lines.drop i = ls → DupInv lines i m →
      DupInv lines (i + ls.length) (buildDupAux i ls m) := by
  intro ls
  induction ls with
  | nil => intro i m _ hm; simpa [buildDupAux] using hm
  | cons l ls ih =>
    intro i m hdrop hm
    obtain ⟨hget, hdrop'⟩ := drop_cons_elim lines i l ls hdrop
    have heq : i + (l :: ls).length = (i + 1) + ls.length := by
      simp only [List.length_cons]
      omega
    rw [heq]
    simp only [buildDupAux]
    split
    · exact ih (i + 1) m hdrop'
        (fun p hp => entryOk_mono lines i p (hm p hp))
    · rename_i hcond
      simp only [Bool.or_eq_true, decide_eq_true_eq, not_or,
        Bool.not_eq_true] at hcond
      exact ih (i + 1) _ hdrop'
        (addOcc_inv lines i (trimL l) l (by omega) hcond.2 hget rfl m hm)

theorem findDup_shape (lines : List (List Char)) (b : DuplicateBlock)
    (hb : b ∈ findDuplicatedCode lines) :
    ∃ p ∈ buildDupAux 0 lines [], 1 < p.2.length ∧
      b = ⟨p.1, p.2.length, p.2⟩ := by
  simp only [findDuplicatedCode, List.mem_map, List.mem_filter] at hb
  obtain ⟨p, ⟨hpm, hplen⟩, hbp⟩ := hb
  exact ⟨p, hpm, by simpa using hplen, hbp.symm⟩

/-! ### Claims on the duplicate detector -/

/-- C5: every duplicate block has at least two occurrences, its code is a
trimmed line of length at least 3 that is not pure punctuation, its line
numbers are strictly ascending, and every recorded line number points at a
line of the input whose trimmed text equals the block's code (grouping by
exact trimmed-text equality). -/
theorem claim_C5 (lines : List (List Char)) (b : DuplicateBlock)
    (hb : b ∈ findDuplicatedCode lines) :
    2 ≤ b.occurrences ∧ 3 ≤ b.code.length ∧ isTrivial b.code = false ∧
      List.Chain' (· < ·) b.locations ∧
      ∀ ln ∈ b.locations, 1 ≤ ln ∧
        ∃ raw, lines[ln - 1]? = some raw ∧ trimL raw = b.code := by
  obtain ⟨p, hpm, hplen, rfl⟩ := findDup_shape lines b hb
  have hok : EntryOk lines (0 + lines.length) p :=
    buildDupAux_inv lines lines 0 [] (by simp) (fun p hp => by simp at hp)
      p hpm
  obtain ⟨h3, ht, hchain, hmem⟩ := hok
  refine ⟨?_, h3, ht, hchain, ?_⟩
  · show 2 ≤ p.2.length
    omega
  · intro ln hln
    exact ⟨(hmem ln hln).1, (hmem ln hln).2.2⟩

/-- Witness for C5: the concrete two-line input `abc\nabc` yields the block
with code `abc` at lines 1 and 2, and its conclusion holds there. -/
theorem claim_C5_witness :
    List.Chain' (· < ·)
      (DuplicateBlock.locations ⟨"abc".data, 2, [1, 2]⟩) :=
  (claim_C5 (splitLines "abc\nabc".data) ⟨"abc".data, 2, [1, 2]⟩
    (by decide)).2.2.2.1

/-- C10: every duplicate block's occurrence count equals the length of its
recorded location list. -/
theorem claim_C10 (lines : List (List Char)) (b : DuplicateBlock)
    (hb : b ∈ findDuplicatedCode lines) :
    b.occurrences = b.locations.length := by
  obtain ⟨p, hpm, hplen, rfl⟩ := findDup_shape lines b hb
  rfl

/-- Witness for C10 at a concrete two-line duplicate input. -/
theorem claim_C10_witness :
    (DuplicateBlock.occurrences ⟨"xyz".data, 2, [1, 2]⟩)
      = (DuplicateBlock.locations ⟨"xyz".data, 2, [1, 2]⟩).length :=
  claim_C10 (splitLines "xyz\nxyz".data) ⟨"xyz".data, 2, [1, 2]⟩ (by decide)

end QAMetrics

namespace QAMetrics

/-! ### Lemmas on the documentation scorer -/

theorem docAux_spec : ∀ (ls : List (List Char)) (tot doc : Nat) (last : Bool),
    docAux ls tot doc last
      = (tot + (ls.map trimL).countP (fun t => isComplexLine t),
         doc + ((last :: (ls.map trimL).map isCommentLine).zip
             (ls.map trimL)).countP (fun p => p.1 && isComplexLine p.2)) := by
  intro ls
  induction ls with
  | nil => intro tot doc last; simp [docAux]
  | cons l ls ih =>
    intro tot doc last
    simp only [docAux, ih, List.map_cons, List.countP_cons, List.zip_cons_cons,
      Prod.mk.injEq]
    constructor <;>
      by_cases h1 : isComplexLine (trimL l) <;> cases last <;>
        simp [h1] <;> omega

theorem docPairs_le : ∀ (ts : List (List Char)) (last : Bool),
    ((last :: ts.map isCommentLine).zip ts).countP
        (fun p => p.1 && isComplexLine p.2)
      ≤ ts.countP (fun t => isComplexLine t) := by
  intro ts
  induction ts with
  | nil => intro last; simp
  | cons t ts ih =>
    intro last
    simp only [List.map_cons, List.zip_cons_cons, List.countP_cons]
    have := ih (isCommentLine t)
    by_cases h1 : isComplexLine t <;> cases last <;> simp [h1] <;> omega

/-! ### Claim on the documentation scorer -/

/-- C4: for every input, the number of complex lines is the number of lines
whose trimmed text matches a declaration pattern or contains a whole-word
`if`, `for`, `while` or `switch`; the documented count is the number of
complex lines whose immediately preceding line is a comment (trimmed text
starting with `//`, `/*` or `*`); the documented count never exceeds the
total; the percentage is 100 when the total is 0 and otherwise
100·documented/total, always within [0, 100]; and the concrete two-line
input of the specification yields coverage 1 of 1, percentage 100. -/
theorem claim_C4 :
    (∀ lines : List (List Char),
        (analyzeDocumentation lines).totalComplexLines
            = (lines.map trimL).countP (fun t => isComplexLine t) ∧
          (analyzeDocumentation lines).documentedComplexLines
            = ((false :: (lines.map trimL).map isCommentLine).zip
                (lines.map trimL)).countP (fun p => p.1 && isComplexLine p.2) ∧
          (analyzeDocumentation lines).documentedComplexLines
            ≤ (analyzeDocumentation lines).totalComplexLines ∧
          (analyzeDocumentation lines).percentage
            = (if (analyzeDocumentation lines).totalComplexLines = 0
               then (100 : ℚ)
               else 100 * ((analyzeDocumentation lines).documentedComplexLines : ℚ)
                   / ((analyzeDocumentation lines).totalComplexLines : ℚ)) ∧
          0 ≤ (analyzeDocumentation lines).percentage ∧
          (analyzeDocumentation lines).percentage ≤ 100) ∧
    analyzeDocumentation (splitLines "// comment\nif (x) \x7b \x7d".data)
      = ⟨1, 1, 100⟩ := by
  constructor
  · intro lines
    have hspec := docAux_spec lines 0 0 false
    have htot : (analyzeDocumentation lines).totalComplexLines
        = (lines.map trimL).countP (fun t => isComplexLine t) := by
      simp [analyzeDocumentation, hspec]
    have hdoc : (analyzeDocumentation lines).documentedComplexLines
        = ((false :: (lines.map trimL).map isCommentLine).zip
            (lines.map trimL)).countP (fun p => p.1 && isComplexLine p.2) := by
      simp [analyzeDocumentation, hspec]
    have hle : (analyzeDocumentation lines).documentedComplexLines
        ≤ (analyzeDocumentation lines).totalComplexLines := by
      rw [htot, hdoc]
      exact docPairs_le (lines.map trimL) false
    have hpct : (analyzeDocumentation lines).percentage
        = (if (analyzeDocumentation lines).totalComplexLines = 0
           then (100 : ℚ)
           else 100 * ((analyzeDocumentation lines).documentedComplexLines : ℚ)
               / ((analyzeDocumentation lines).totalComplexLines : ℚ)) := by
      by_cases hz : (docAux lines 0 0 false).1 = 0
      · simp [analyzeDocumentation, hz]
      · simp only [analyzeDocumentation, hz, if_false]
        ring
    refine ⟨htot, hdoc, hle, hpct, ?_, ?_⟩
    · rw [hpct]
      split
      · norm_num
      · positivity
    · rw [hpct]
      split
      · norm_num
      · rename_i hz
        have ht0 : (0 : ℚ) < ((analyzeDocumentation lines).totalComplexLines : ℚ) :=
          by exact_mod_cast Nat.pos_of_ne_zero hz
        rw [div_le_iff₀ ht0]
        have hdt : ((analyzeDocumentation lines).documentedComplexLines : ℚ)
            ≤ ((analyzeDocumentation lines).totalComplexLines : ℚ) := by
          exact_mod_cast hle
        nlinarith
  · have h : docAux (splitLines "// comment\nif (x) \x7b \x7d".data) 0 0 false
        = (1, 1) := by decide
    simp [analyzeDocumentation, h]

/-! ### Claim on the line splitter -/

/-- C8 (amended): given empty input text, the splitter does not produce
zero lines; it produces exactly one line, the empty line, mirroring the
JavaScript behaviour of `"".split('\n')`. -/
theorem claim_C8 :
    splitLines "".data = [[]] ∧ (splitLines "".data).length = 1 := by decide

/-- Counterexample to C8 as stated: on empty input the splitter's output is
not an empty sequence of lines. -/
theorem claim_C8_cex : ¬ ((splitLines "".data).length = 0) := by decide

end QAMetrics
